import Mathlib

/- A shallow embedding of `waveform_matching.py`: the two-component waveform
distance of Tolias et al. (2007).  Array entries are exact reals; the
floating-point degeneracies the code can produce (0/0, log of a non-positive
number, division of a nonzero number by zero) are modelled by an explicit
IEEE-style value type `RF` with NaN and signed infinities. -/

namespace WaveformMatching

/-- IEEE-style numeric value: a finite real, NaN, or a signed infinity. -/
inductive RF where
  | fin (a : ℝ)
  | nan
  | inf
  | ninf

namespace RF

/-- IEEE negation. -/
def neg : RF → RF
  | fin a => fin (-a)
  | nan => nan
  | inf => ninf
  | ninf => inf

/-- IEEE addition: NaN absorbs, opposite infinities give NaN. -/
def add : RF → RF → RF
  | nan, _ => nan
  | _, nan => nan
  | fin a, fin b => fin (a + b)
  | fin _, inf => inf
  | fin _, ninf => ninf
  | inf, fin _ => inf
  | ninf, fin _ => ninf
  | inf, inf => inf
  | ninf, ninf => ninf
  | inf, ninf => nan
  | ninf, inf => nan

/-- IEEE subtraction. -/
def sub (x y : RF) : RF := add x (neg y)

/-- IEEE multiplication: NaN absorbs, 0 * inf = NaN. -/
noncomputable def mul : RF → RF → RF
  | nan, _ => nan
  | _, nan => nan
  | fin a, fin b => fin (a * b)
  | fin a, inf => if a = 0 then nan else if 0 < a then inf else ninf
  | fin a, ninf => if a = 0 then nan else if 0 < a then ninf else inf
  | inf, fin b => if b = 0 then nan else if 0 < b then inf else ninf
  | ninf, fin b => if b = 0 then nan else if 0 < b then ninf else inf
  | inf, inf => inf
  | inf, ninf => ninf
  | ninf, inf => ninf
  | ninf, ninf => inf

/-- IEEE division: 0/0 = NaN, (nonzero)/0 = signed infinity, inf/inf = NaN. -/
noncomputable def div : RF → RF → RF
  | nan, _ => nan
  | _, nan => nan
  | fin a, fin b =>
      if b = 0 then (if a = 0 then nan else if 0 < a then inf else ninf)
      else fin (a / b)
  | fin _, inf => fin 0
  | fin _, ninf => fin 0
  | inf, fin b => if 0 ≤ b then inf else ninf
  | ninf, fin b => if 0 ≤ b then ninf else inf
  | inf, inf => nan
  | inf, ninf => nan
  | ninf, inf => nan
  | ninf, ninf => nan

/-- IEEE square root: negative arguments give NaN (numpy `np.sqrt`). -/
noncomputable def sqrt : RF → RF
  | nan => nan
  | inf => inf
  | ninf => nan
  | fin a => if a < 0 then nan else fin (Real.sqrt a)

/-- IEEE natural logarithm: `log 0 = -inf`, log of a negative number is NaN
(numpy `np.log`). -/
noncomputable def log : RF → RF
  | nan => nan
  | inf => inf
  | ninf => nan
  | fin a => if 0 < a then fin (Real.log a) else if a = 0 then ninf else nan

/-- IEEE absolute value. -/
noncomputable def abs : RF → RF
  | nan => nan
  | inf => inf
  | ninf => inf
  | fin a => fin |a|

/-- `np.maximum` on two values: propagates NaN, otherwise the larger value. -/
noncomputable def npMax2 : RF → RF → RF
  | nan, _ => nan
  | _, nan => nan
  | inf, _ => inf
  | _, inf => inf
  | fin a, fin b => fin (max a b)
  | fin a, ninf => fin a
  | ninf, fin b => fin b
  | ninf, ninf => ninf

/-- IEEE strict greater-than: any comparison with NaN is false. -/
noncomputable def gtb : RF → RF → Bool
  | nan, _ => false
  | _, nan => false
  | inf, inf => false
  | inf, _ => true
  | ninf, _ => false
  | fin _, inf => false
  | fin _, ninf => true
  | fin a, fin b => decide (b < a)

end RF

/-- `np.sum` of a vector of values, accumulating from 0 (left fold, as the
reference formula is over exact reals where summation order is immaterial). -/
def rfSum (l : List RF) : RF := l.foldl RF.add (RF.fin 0)

/-- `np.max` of a vector of values, a left fold of `np.maximum`; `RF.ninf` is
an identity of `npMax2`, so on the nonempty vectors the guarded code feeds it
this equals the fold from the first element. -/
noncomputable def npMax (l : List RF) : RF := l.foldl RF.npMax2 RF.ninf

/-- Python built-in `max` of a nonempty list: keep the current best and
replace it whenever a later item compares strictly greater (so NaN items
never replace the best). On the empty list Python raises; the value here is
arbitrary and unreached because the code errors out earlier. -/
noncomputable def pyMax : List RF → RF
  | [] => RF.nan
  | a :: t => t.foldl (fun best item => if RF.gtb item best then item else best) a

/-- `np.dot` of two equal-length real vectors. -/
def dotL (u v : List ℝ) : ℝ := (List.zipWith (· * ·) u v).sum

/-- `vec_norm(v) = np.sqrt(np.sum(v ** 2))` from the source, over IEEE-style
values so that NaN entries propagate. -/
noncomputable def vec_norm (v : List RF) : RF :=
  RF.sqrt (rfSum (v.map fun e => RF.mul e e))

/-- A numpy input array: 1-dimensional (a vector of samples) or 2-dimensional
(a list of rows, each row holding one sample per channel). -/
inductive NDArray where
  | one (v : List ℝ)
  | two (rows : List (List ℝ))

/-- The row width of a 2-D array (number of channels). -/
def width (rows : List (List ℝ)) : ℕ := (rows.headD []).length

/-- `x.shape` as numpy reports it. -/
def shape : NDArray → List ℕ
  | NDArray.one v => [v.length]
  | NDArray.two rows => [rows.length, width rows]

/-- A genuine (non-ragged) numpy array: every row has the common width. -/
def wellFormed : NDArray → Prop
  | NDArray.one _ => True
  | NDArray.two rows => ∀ r ∈ rows, r.length = width rows

/-- The list of channel columns after the source's 1-D normalization
(`np.atleast_2d(x).T` turns a vector into a single column). -/
def toCols : NDArray → List (List ℝ)
  | NDArray.one v => [v]
  | NDArray.two rows => (List.range (width rows)).map fun j => rows.map fun r => r.getD j 0

/-- Channel column `i` of a column list (`x[:, i]` in the source). -/
def colD (c : List (List ℝ)) (i : ℕ) : List ℝ := c.getD i []

/-- `n_channels = x.shape[1]` after normalization. -/
def nChannels (x : NDArray) : ℕ := (toCols x).length

/-- The per-channel scaling factors:
`alphas[i] = np.dot(x[:, i], y[:, i]) / np.dot(x[:, i], x[:, i])`. -/
noncomputable def alphasOf (xc yc : List (List ℝ)) : List RF :=
  (List.range xc.length).map fun i =>
    RF.div (RF.fin (dotL (colD xc i) (colD yc i))) (RF.fin (dotL (colD xc i) (colD xc i)))

/-- The scaled residual `alphas[i] * x[:, i] - y[:, i]`. -/
noncomputable def residual (a : RF) (xi yi : List ℝ) : List RF :=
  List.zipWith (fun xk yk => RF.sub (RF.mul a (RF.fin xk)) (RF.fin yk)) xi yi

/-- `d_1`: starting from 0, add
`vec_norm(alphas[i] * x[:, i] - y[:, i]) / vec_norm(y[:, i])` per channel. -/
noncomputable def d1Of (xc yc : List (List ℝ)) : RF :=
  ((List.range xc.length).map fun i =>
      RF.div (vec_norm (residual ((alphasOf xc yc).getD i RF.nan) (colD xc i) (colD yc i)))
        (vec_norm ((colD yc i).map RF.fin))).foldl RF.add (RF.fin 0)

/-- `d_2a = np.max(np.abs(np.log(alphas)))`. -/
noncomputable def d2aOf (xc yc : List (List ℝ)) : RF :=
  npMax ((alphasOf xc yc).map fun a => RF.abs (RF.log a))

/-- The list `d_2b` built by the nested channel loops:
`np.abs(np.log(alphas[i]) - np.log(alphas[j]))` for all ordered pairs. -/
noncomputable def d2bListOf (xc yc : List (List ℝ)) : List RF :=
  (List.range xc.length).flatMap fun i =>
    (List.range xc.length).map fun j =>
      RF.abs (RF.sub (RF.log ((alphasOf xc yc).getD i RF.nan))
        (RF.log ((alphasOf xc yc).getD j RF.nan)))

/-- `d_2 = d_2a + max(d_2b)`. -/
noncomputable def d2Of (xc yc : List (List ℝ)) : RF :=
  RF.add (d2aOf xc yc) (pyMax (d2bListOf xc yc))

/-- The ways `compute_waveform_distance` can raise: the shape assertion
(`AssertionError`), or numpy's `ValueError` from reducing (`np.max`) an empty
`alphas` array when the channel count is zero. -/
inductive WMError where
  | shapeMismatch
  | valueError

/-- `compute_waveform_distance(x, y)` from the source: assert equal shapes,
normalize 1-D input to a single column, compute `alphas`, `d_1` and `d_2`,
and return `np.array([d_1, d_2])`.  With zero channels `np.max` raises on the
empty `alphas`. -/
noncomputable def compute_waveform_distance (x y : NDArray) : Except WMError (RF × RF) :=
  if shape x = shape y then
    if (toCols x).length = 0 then Except.error WMError.valueError
    else Except.ok (d1Of (toCols x) (toCols y), d2Of (toCols x) (toCols y))
  else Except.error WMError.shapeMismatch

/-- Spec-side Euclidean norm `||v||_2 = sqrt(sum(v^2))` over plain reals. -/
noncomputable def normL2 (v : List ℝ) : ℝ := Real.sqrt ((v.map fun e => e ^ 2).sum)

/-- Spec-side scaled residual `alpha * x_i - y_i` over plain reals. -/
def rres (a : ℝ) (u v : List ℝ) : List ℝ := List.zipWith (fun p q => a * p - q) u v

/-- Spec-side residual sum of squares `sum((alpha * x_i - y_i)^2)`. -/
def resSum (a : ℝ) (u v : List ℝ) : ℝ := ((rres a u v).map fun e => e ^ 2).sum

/-- Spec-side scaling factor `alpha = dot(x_i, y_i) / dot(x_i, x_i)` as a plain
real quotient. -/
noncomputable def alphaR (u v : List ℝ) : ℝ := dotL u v / dotL u u

/-- Spec-side scaling factor of channel `i` of two column lists. -/
noncomputable def alphaC (xc yc : List (List ℝ)) (i : ℕ) : ℝ :=
  alphaR (colD xc i) (colD yc i)

/-- Spec-side shape distance `d1 = sum_i ||alpha_i * x_i - y_i||_2 / ||y_i||_2`. -/
noncomputable def d1Spec (xc yc : List (List ℝ)) : ℝ :=
  ∑ i ∈ Finset.range xc.length,
    normL2 (rres (alphaC xc yc i) (colD xc i) (colD yc i)) / normL2 (colD yc i)

/-- Spec-side `d2a = max_i |log(alpha_i)|` over the (nonempty) channel range. -/
noncomputable def d2aSpec (xc yc : List (List ℝ)) (h : xc.length ≠ 0) : ℝ :=
  (Finset.range xc.length).sup' (Finset.nonempty_range_iff.mpr h)
    fun i => |Real.log (alphaC xc yc i)|

/-- Spec-side `d2b = max_{i,j} |log(alpha_i) - log(alpha_j)|` over all ordered
channel pairs, including `i = j`. -/
noncomputable def d2bSpec (xc yc : List (List ℝ)) (h : xc.length ≠ 0) : ℝ :=
  (Finset.range xc.length ×ˢ Finset.range xc.length).sup'
    ((Finset.nonempty_range_iff.mpr h).product (Finset.nonempty_range_iff.mpr h))
    fun p => |Real.log (alphaC xc yc p.1) - Real.log (alphaC xc yc p.2)|

/-- Modelled from the spec: the shape an input has after the spec's notion of
normalizing a 1-D input of length N to a single-channel (N, 1) 2-D form.
Claim C1 judges the shape check against these normalized shapes, while the
source asserts on the raw shapes before any reshaping. -/
def normShape : NDArray → List ℕ
  | NDArray.one v => [v.length, 1]
  | NDArray.two rows => [rows.length, width rows]

/-- Multiply every entry of an array by the scalar `k` (numpy `k * x`). -/
def scaleArr (k : ℝ) : NDArray → NDArray
  | NDArray.one v => NDArray.one (v.map fun e => k * e)
  | NDArray.two rows => NDArray.two (rows.map fun r => r.map fun e => k * e)

namespace RF

@[simp] lemma add_nan_left (x : RF) : add nan x = nan := by cases x <;> rfl

@[simp] lemma add_nan_right (x : RF) : add x nan = nan := by cases x <;> rfl

@[simp] lemma add_fin_fin (a b : ℝ) : add (fin a) (fin b) = fin (a + b) := rfl

@[simp] lemma neg_fin (a : ℝ) : neg (fin a) = fin (-a) := rfl

@[simp] lemma neg_nan : neg nan = nan := rfl

@[simp] lemma neg_inf : neg inf = ninf := rfl

@[simp] lemma neg_ninf : neg ninf = inf := rfl

@[simp] lemma sub_fin_fin (a b : ℝ) : sub (fin a) (fin b) = fin (a - b) := by
  simp [sub, sub_eq_add_neg]

@[simp] lemma sub_nan_left (x : RF) : sub nan x = nan := by cases x <;> rfl

@[simp] lemma sub_nan_right (x : RF) : sub x nan = nan := by cases x <;> rfl

@[simp] lemma sub_fin_inf (a : ℝ) : sub (fin a) inf = ninf := rfl

@[simp] lemma sub_fin_ninf (a : ℝ) : sub (fin a) ninf = inf := rfl

@[simp] lemma sub_inf_fin (b : ℝ) : sub inf (fin b) = inf := rfl

@[simp] lemma sub_ninf_fin (b : ℝ) : sub ninf (fin b) = ninf := rfl

@[simp] lemma sub_inf_inf : sub inf inf = nan := rfl

@[simp] lemma sub_inf_ninf : sub inf ninf = inf := rfl

@[simp] lemma sub_ninf_inf : sub ninf inf = ninf := rfl

@[simp] lemma sub_ninf_ninf : sub ninf ninf = nan := rfl

@[simp] lemma mul_nan_left (x : RF) : mul nan x = nan := by cases x <;> rfl

@[simp] lemma mul_nan_right (x : RF) : mul x nan = nan := by cases x <;> rfl

@[simp] lemma mul_fin_fin (a b : ℝ) : mul (fin a) (fin b) = fin (a * b) := rfl

@[simp] lemma div_nan_left (x : RF) : div nan x = nan := by cases x <;> rfl

@[simp] lemma div_nan_right (x : RF) : div x nan = nan := by cases x <;> rfl

lemma div_fin_fin {b : ℝ} (hb : b ≠ 0) (a : ℝ) : div (fin a) (fin b) = fin (a / b) := by
  simp [div, hb]

@[simp] lemma div_fin_zero_zero : div (fin 0) (fin 0) = nan := by simp [div]

@[simp] lemma sqrt_nan : sqrt nan = nan := rfl

lemma sqrt_fin_of_nonneg {a : ℝ} (h : 0 ≤ a) : sqrt (fin a) = fin (Real.sqrt a) := by
  simp [sqrt, h.not_lt]

@[simp] lemma log_nan : log nan = nan := rfl

@[simp] lemma log_ninf : log ninf = nan := rfl

lemma log_fin_pos {a : ℝ} (h : 0 < a) : log (fin a) = fin (Real.log a) := by
  simp [log, h]

lemma log_fin_zero : log (fin 0) = ninf := by simp [log]

lemma log_fin_neg {a : ℝ} (h : a < 0) : log (fin a) = nan := by
  simp [log, h.not_lt, h.ne]

@[simp] lemma abs_fin (a : ℝ) : abs (fin a) = fin |a| := rfl

@[simp] lemma abs_nan : abs nan = nan := rfl

@[simp] lemma abs_inf : abs inf = inf := rfl

@[simp] lemma abs_ninf : abs ninf = inf := rfl

@[simp] lemma npMax2_nan_left (x : RF) : npMax2 nan x = nan := by cases x <;> rfl

@[simp] lemma npMax2_nan_right (x : RF) : npMax2 x nan = nan := by cases x <;> rfl

@[simp] lemma npMax2_fin_fin (a b : ℝ) : npMax2 (fin a) (fin b) = fin (max a b) := rfl

@[simp] lemma npMax2_ninf_left (x : RF) : npMax2 ninf x = x := by cases x <;> rfl

@[simp] lemma gtb_fin_fin (a b : ℝ) : gtb (fin a) (fin b) = decide (b < a) := rfl

end RF

lemma foldl_add_map_fin (l : List ℝ) : ∀ c : ℝ,
    (l.map RF.fin).foldl RF.add (RF.fin c) = RF.fin (c + l.sum) := by
  induction l with
  | nil => intro c; simp
  | cons a t ih => intro c; simp [ih, add_assoc]

lemma rfSum_map_fin (l : List ℝ) : rfSum (l.map RF.fin) = RF.fin l.sum := by
  simp [rfSum, foldl_add_map_fin]

lemma foldl_add_nan (l : List RF) : l.foldl RF.add RF.nan = RF.nan := by
  induction l with
  | nil => rfl
  | cons a t ih => simp [ih]

lemma foldl_add_of_nan_mem {l : List RF} (h : RF.nan ∈ l) (c : RF) :
    l.foldl RF.add c = RF.nan := by
  induction l generalizing c with
  | nil => cases h
  | cons a t ih =>
    rcases List.mem_cons.mp h with h1 | h1
    · rw [← h1]; simp [foldl_add_nan]
    · exact ih h1 _

lemma foldl_npMax2_nan (l : List RF) : l.foldl RF.npMax2 RF.nan = RF.nan := by
  induction l with
  | nil => rfl
  | cons a t ih => simp [ih]

lemma foldl_npMax2_of_nan_mem {l : List RF} (h : RF.nan ∈ l) (c : RF) :
    l.foldl RF.npMax2 c = RF.nan := by
  induction l generalizing c with
  | nil => cases h
  | cons a t ih =>
    rcases List.mem_cons.mp h with h1 | h1
    · rw [← h1]; simp [foldl_npMax2_nan]
    · exact ih h1 _

lemma npMax_of_nan_mem {l : List RF} (h : RF.nan ∈ l) : npMax l = RF.nan :=
  foldl_npMax2_of_nan_mem h _

lemma foldl_npMax2_map_fin (l : List ℝ) : ∀ c : ℝ,
    (l.map RF.fin).foldl RF.npMax2 (RF.fin c) = RF.fin (l.foldl max c) := by
  induction l with
  | nil => intro c; rfl
  | cons a t ih => intro c; simp [ih]

lemma npMax_cons_map_fin (a : ℝ) (t : List ℝ) :
    npMax ((a :: t).map RF.fin) = RF.fin (t.foldl max a) := by
  simp [npMax, foldl_npMax2_map_fin]

lemma pyStep_fin (c b : ℝ) :
    (if RF.gtb (RF.fin b) (RF.fin c) then RF.fin b else RF.fin c) = RF.fin (max c b) := by
  rcases le_or_lt b c with h | h
  · simp [h.not_lt, max_eq_left h]
  · simp [h, max_eq_right h.le]

lemma foldl_pyStep_map_fin (l : List ℝ) : ∀ c : ℝ,
    (l.map RF.fin).foldl (fun best item => if RF.gtb item best then item else best) (RF.fin c)
      = RF.fin (l.foldl max c) := by
  induction l with
  | nil => intro c; rfl
  | cons a t ih => intro c; simp only [List.map_cons, List.foldl_cons, pyStep_fin]; exact ih _

lemma pyMax_cons_map_fin (a : ℝ) (t : List ℝ) :
    pyMax ((a :: t).map RF.fin) = RF.fin (t.foldl max a) := by
  simp only [List.map_cons, pyMax]
  exact foldl_pyStep_map_fin t a

lemma foldl_max_mem (t : List ℝ) : ∀ a : ℝ, t.foldl max a ∈ a :: t := by
  induction t with
  | nil => intro a; simp
  | cons b t ih =>
    intro a
    have h3 : List.foldl max a (b :: t) = List.foldl max (max a b) t := rfl
    rw [h3]
    rcases List.mem_cons.mp (ih (max a b)) with h | h
    · rw [h]
      rcases max_choice a b with h2 | h2 <;> rw [h2]
      · exact List.mem_cons_self a _
      · exact List.mem_cons_of_mem _ (List.mem_cons_self b _)
    · exact List.mem_cons_of_mem _ (List.mem_cons_of_mem _ h)

lemma le_foldl_max_init (t : List ℝ) : ∀ a : ℝ, a ≤ t.foldl max a := by
  induction t with
  | nil => intro a; exact le_refl a
  | cons b t ih => intro a; exact le_trans (le_max_left a b) (ih (max a b))

lemma le_foldl_max_of_mem {x : ℝ} (t : List ℝ) : ∀ a : ℝ, x ∈ a :: t → x ≤ t.foldl max a := by
  induction t with
  | nil => intro a h; simp at h; subst h; simp
  | cons b t ih =>
    intro a h
    rcases List.mem_cons.mp h with h1 | h1
    · rw [h1]; exact le_trans (le_max_left a b) (le_foldl_max_init t _)
    · rcases List.mem_cons.mp h1 with h2 | h2
      · rw [h2]; exact le_trans (le_max_right a b) (le_foldl_max_init t _)
      · exact ih (max a b) (List.mem_cons_of_mem _ h2)

lemma foldl_max_eq_sup' {ι : Type*} (s : Finset ι) (hs : s.Nonempty) (f : ι → ℝ)
    (a : ℝ) (t : List ℝ) (hmem : ∀ x ∈ a :: t, ∃ i ∈ s, x = f i)
    (hall : ∀ i ∈ s, f i ∈ a :: t) :
    t.foldl max a = s.sup' hs f := by
  apply le_antisymm
  · obtain ⟨i, hi, he⟩ := hmem _ (foldl_max_mem t a)
    rw [he]
    exact Finset.le_sup' f hi
  · exact Finset.sup'_le _ _ fun i hi => le_foldl_max_of_mem t a (hall i hi)

lemma sum_map_range (f : ℕ → ℝ) (n : ℕ) :
    ((List.range n).map f).sum = ∑ i ∈ Finset.range n, f i := by
  induction n with
  | zero => simp
  | succ m ih => rw [List.range_succ]; simp [ih, Finset.sum_range_succ]

lemma getD_map_range {α : Type*} (g : ℕ → α) {i n : ℕ} (h : i < n) (d : α) :
    ((List.range n).map g).getD i d = g i := by
  rw [List.getD_eq_getElem?_getD, List.getElem?_map, List.getElem?_range h]
  rfl

lemma dotL_cons_cons (a b : ℝ) (t s : List ℝ) :
    dotL (a :: t) (b :: s) = a * b + dotL t s := by
  simp [dotL]

lemma dotL_self (v : List ℝ) : dotL v v = (v.map fun e => e ^ 2).sum := by
  induction v with
  | nil => rfl
  | cons a t ih => simp [dotL_cons_cons, ih, pow_two]

lemma sum_sq_pos_of_ne_zero {v : List ℝ} (h : ∃ e ∈ v, e ≠ 0) :
    0 < (v.map fun e => e ^ 2).sum := by
  obtain ⟨e, he, hne⟩ := h
  induction he with
  | head t =>
    have h1 : 0 < e ^ 2 := by positivity
    have h2 : 0 ≤ (t.map fun e => e ^ 2).sum := List.sum_nonneg (by
      intro x hx
      obtain ⟨y, _, rfl⟩ := List.mem_map.mp hx
      positivity)
    simp only [List.map_cons, List.sum_cons]
    linarith
  | tail b hbt ih =>
    simp only [List.map_cons, List.sum_cons]
    have hb : 0 ≤ b ^ 2 := sq_nonneg b
    linarith

lemma dotL_self_nonneg (v : List ℝ) : 0 ≤ dotL v v := by
  rw [dotL_self]
  exact List.sum_nonneg (by
    intro x hx
    obtain ⟨y, _, rfl⟩ := List.mem_map.mp hx
    positivity)

lemma dotL_self_pos {v : List ℝ} (h : ∃ e ∈ v, e ≠ 0) : 0 < dotL v v := by
  rw [dotL_self]
  exact sum_sq_pos_of_ne_zero h

lemma dotL_zero_left : ∀ u : List ℝ, (∀ e ∈ u, e = 0) → ∀ v, dotL u v = 0 := by
  intro u
  induction u with
  | nil => intro _ v; rfl
  | cons a t ih =>
    intro h v
    cases v with
    | nil => rfl
    | cons b s =>
      have ha : a = 0 := h a (List.mem_cons_self a t)
      rw [dotL_cons_cons, ha, ih (fun e he => h e (List.mem_cons_of_mem a he)) s]
      ring

lemma dotL_smul_left (k : ℝ) : ∀ u v : List ℝ,
    dotL (u.map fun e => k * e) v = k * dotL u v := by
  intro u
  induction u with
  | nil => intro v; simp [dotL]
  | cons a t ih =>
    intro v
    cases v with
    | nil => simp [dotL]
    | cons b s =>
      simp only [List.map_cons, dotL_cons_cons, ih]
      ring

lemma dotL_smul_right (k : ℝ) : ∀ u v : List ℝ,
    dotL u (v.map fun e => k * e) = k * dotL u v := by
  intro u
  induction u with
  | nil => intro v; simp [dotL]
  | cons a t ih =>
    intro v
    cases v with
    | nil => simp [dotL]
    | cons b s =>
      simp only [List.map_cons, dotL_cons_cons, ih]
      ring

lemma normL2_nonneg (v : List ℝ) : 0 ≤ normL2 v := Real.sqrt_nonneg _

lemma normL2_pos {v : List ℝ} (h : ∃ e ∈ v, e ≠ 0) : 0 < normL2 v :=
  Real.sqrt_pos.mpr (sum_sq_pos_of_ne_zero h)

lemma normL2_eq_zero_of_zeros {v : List ℝ} (h : ∀ e ∈ v, e = 0) : normL2 v = 0 := by
  have h1 : (v.map fun e => e ^ 2).sum = 0 := List.sum_eq_zero (by
    intro x hx
    obtain ⟨y, hy, rfl⟩ := List.mem_map.mp hx
    rw [h y hy]
    ring)
  rw [normL2, h1, Real.sqrt_zero]

lemma residual_fin (a : ℝ) : ∀ u v : List ℝ,
    residual (RF.fin a) u v = (rres a u v).map RF.fin := by
  intro u
  induction u with
  | nil => intro v; cases v <;> rfl
  | cons p t ih =>
    intro v
    cases v with
    | nil => rfl
    | cons q s =>
      have h1 := ih s
      simp only [residual, rres] at h1 ⊢
      simp only [List.zipWith_cons_cons, List.map_cons, RF.mul_fin_fin, RF.sub_fin_fin] at h1 ⊢
      rw [h1]

lemma vec_norm_map_fin (v : List ℝ) : vec_norm (v.map RF.fin) = RF.fin (normL2 v) := by
  have h1 : (v.map RF.fin).map (fun e => RF.mul e e) = (v.map fun e => e ^ 2).map RF.fin := by
    simp only [List.map_map]
    apply List.map_congr_left
    intro e _
    simp [Function.comp, pow_two]
  have h2 : 0 ≤ (v.map fun e => e ^ 2).sum := List.sum_nonneg (by
    intro x hx
    obtain ⟨y, _, rfl⟩ := List.mem_map.mp hx
    positivity)
  rw [vec_norm, h1, rfSum_map_fin, RF.sqrt_fin_of_nonneg h2, normL2]

lemma vec_norm_of_nan_mem {v : List RF} (h : RF.nan ∈ v) : vec_norm v = RF.nan := by
  have h1 : RF.nan ∈ v.map fun e => RF.mul e e :=
    List.mem_map.mpr ⟨RF.nan, h, by simp⟩
  simp only [vec_norm, rfSum]
  rw [foldl_add_of_nan_mem h1]
  rfl

lemma toCols_one (v : List ℝ) : toCols (NDArray.one v) = [v] := rfl

lemma nChannels_one (v : List ℝ) : nChannels (NDArray.one v) = 1 := rfl

lemma length_toCols_two (rows : List (List ℝ)) :
    (toCols (NDArray.two rows)).length = width rows := by
  simp [toCols]

lemma colD_toCols_two {rows : List (List ℝ)} {i : ℕ} (h : i < width rows) :
    colD (toCols (NDArray.two rows)) i = rows.map fun r => r.getD i 0 := by
  simp only [toCols, colD]
  exact getD_map_range _ h _

lemma colD_of_le {c : List (List ℝ)} {i : ℕ} (h : c.length ≤ i) : colD c i = [] := by
  simp only [colD]
  exact List.getD_eq_default _ _ h

lemma nChannels_eq_of_shape {x y : NDArray} (hsh : shape x = shape y) :
    nChannels x = nChannels y := by
  cases x with
  | one v =>
    cases y with
    | one w => rfl
    | two rows => simp [shape] at hsh
  | two rows =>
    cases y with
    | one w => simp [shape] at hsh
    | two rows2 =>
      simp only [shape, List.cons.injEq, and_true] at hsh
      simp [nChannels, toCols, hsh.2]

lemma colD_length_eq {x y : NDArray} (hsh : shape x = shape y) (i : ℕ) :
    (colD (toCols x) i).length = (colD (toCols y) i).length := by
  cases x with
  | one v =>
    cases y with
    | one w =>
      have hvw : v.length = w.length := by simpa [shape] using hsh
      cases i with
      | zero => simpa [colD, toCols] using hvw
      | succ j => simp [colD, toCols]
    | two rows => simp [shape] at hsh
  | two rows =>
    cases y with
    | one w => simp [shape] at hsh
    | two rows2 =>
      simp only [shape, List.cons.injEq, and_true] at hsh
      by_cases hi : i < width rows
      · rw [colD_toCols_two hi, colD_toCols_two (hsh.2 ▸ hi)]
        simp [hsh.1]
      · rw [colD_of_le (by rw [length_toCols_two]; omega),
          colD_of_le (by rw [length_toCols_two]; omega)]

lemma alphasOf_getD {xc yc : List (List ℝ)} {i : ℕ} (hi : i < xc.length) :
    (alphasOf xc yc).getD i RF.nan
      = RF.div (RF.fin (dotL (colD xc i) (colD yc i)))
          (RF.fin (dotL (colD xc i) (colD xc i))) := by
  simp only [alphasOf]
  exact getD_map_range _ hi _

lemma alphasOf_getD_fin {xc yc : List (List ℝ)} {i : ℕ} (hi : i < xc.length)
    (hd : dotL (colD xc i) (colD xc i) ≠ 0) :
    (alphasOf xc yc).getD i RF.nan = RF.fin (alphaC xc yc i) := by
  rw [alphasOf_getD hi, RF.div_fin_fin hd]
  rfl

lemma dotL_ne_zero_of_alphaC_pos {xc yc : List (List ℝ)} {i : ℕ}
    (h : 0 < alphaC xc yc i) : dotL (colD xc i) (colD xc i) ≠ 0 := by
  intro h0
  rw [alphaC, alphaR, h0, div_zero] at h
  exact lt_irrefl 0 h

lemma d1_term_eq {a : ℝ} {xi yi : List ℝ} (hy : ∃ e ∈ yi, e ≠ 0) :
    RF.div (vec_norm (residual (RF.fin a) xi yi)) (vec_norm (yi.map RF.fin))
      = RF.fin (normL2 (rres a xi yi) / normL2 yi) := by
  rw [residual_fin, vec_norm_map_fin, vec_norm_map_fin,
    RF.div_fin_fin (normL2_pos hy).ne']

lemma d1Of_eq {xc yc : List (List ℝ)}
    (hd : ∀ i < xc.length, dotL (colD xc i) (colD xc i) ≠ 0)
    (hy : ∀ i < xc.length, ∃ e ∈ colD yc i, e ≠ 0) :
    d1Of xc yc = RF.fin (d1Spec xc yc) := by
  have h1 : (List.range xc.length).map (fun i =>
        RF.div (vec_norm (residual ((alphasOf xc yc).getD i RF.nan) (colD xc i) (colD yc i)))
          (vec_norm ((colD yc i).map RF.fin)))
      = ((List.range xc.length).map fun i =>
          normL2 (rres (alphaC xc yc i) (colD xc i) (colD yc i)) / normL2 (colD yc i)).map
          RF.fin := by
    rw [List.map_map]
    apply List.map_congr_left
    intro i hi
    rw [List.mem_range] at hi
    simp only [Function.comp]
    rw [alphasOf_getD_fin hi (hd i hi), d1_term_eq (hy i hi)]
  simp only [d1Of]
  rw [h1, foldl_add_map_fin, zero_add, sum_map_range]
  rfl

lemma d2aOf_eq {xc yc : List (List ℝ)} (hn : xc.length ≠ 0)
    (hα : ∀ i < xc.length, 0 < alphaC xc yc i) :
    d2aOf xc yc = RF.fin (d2aSpec xc yc hn) := by
  have hd : ∀ i < xc.length, dotL (colD xc i) (colD xc i) ≠ 0 :=
    fun i hi => dotL_ne_zero_of_alphaC_pos (hα i hi)
  have ha : (alphasOf xc yc).map (fun a => RF.abs (RF.log a))
      = ((List.range xc.length).map fun i => |Real.log (alphaC xc yc i)|).map RF.fin := by
    simp only [alphasOf, List.map_map]
    apply List.map_congr_left
    intro i hi
    rw [List.mem_range] at hi
    simp only [Function.comp]
    rw [RF.div_fin_fin (hd i hi)]
    have h2 : dotL (colD xc i) (colD yc i) / dotL (colD xc i) (colD xc i)
        = alphaC xc yc i := rfl
    rw [h2, RF.log_fin_pos (hα i hi), RF.abs_fin]
  have hne : ((List.range xc.length).map fun i => |Real.log (alphaC xc yc i)|) ≠ [] := by
    simp [List.range_eq_nil, hn]
  obtain ⟨a0, t0, hct⟩ := List.exists_cons_of_ne_nil hne
  simp only [d2aOf]
  rw [ha, hct, npMax_cons_map_fin]
  congr 1
  simp only [d2aSpec]
  apply foldl_max_eq_sup'
  · intro z hz
    rw [← hct] at hz
    obtain ⟨i, hi, rfl⟩ := List.mem_map.mp hz
    rw [List.mem_range] at hi
    exact ⟨i, Finset.mem_range.mpr hi, rfl⟩
  · intro i hi
    rw [← hct]
    exact List.mem_map.mpr ⟨i, List.mem_range.mpr (Finset.mem_range.mp hi), rfl⟩

lemma d2bList_eq {xc yc : List (List ℝ)}
    (hα : ∀ i < xc.length, 0 < alphaC xc yc i) :
    d2bListOf xc yc
      = ((List.range xc.length).flatMap fun i => (List.range xc.length).map fun j =>
          |Real.log (alphaC xc yc i) - Real.log (alphaC xc yc j)|).map RF.fin := by
  have hd : ∀ i < xc.length, dotL (colD xc i) (colD xc i) ≠ 0 :=
    fun i hi => dotL_ne_zero_of_alphaC_pos (hα i hi)
  rw [List.map_flatMap]
  simp only [d2bListOf]
  rw [List.flatMap_def, List.flatMap_def]
  congr 1
  apply List.map_congr_left
  intro i hi
  rw [List.mem_range] at hi
  rw [List.map_map]
  apply List.map_congr_left
  intro j hj
  rw [List.mem_range] at hj
  simp only [Function.comp]
  rw [alphasOf_getD_fin hi (hd i hi), alphasOf_getD_fin hj (hd j hj),
    RF.log_fin_pos (hα i hi), RF.log_fin_pos (hα j hj), RF.sub_fin_fin, RF.abs_fin]

lemma pyMax_d2bList_eq {xc yc : List (List ℝ)} (hn : xc.length ≠ 0)
    (hα : ∀ i < xc.length, 0 < alphaC xc yc i) :
    pyMax (d2bListOf xc yc) = RF.fin (d2bSpec xc yc hn) := by
  have hpos : 0 < xc.length := Nat.pos_of_ne_zero hn
  have hmem0 : |Real.log (alphaC xc yc 0) - Real.log (alphaC xc yc 0)|
      ∈ (List.range xc.length).flatMap fun i => (List.range xc.length).map fun j =>
          |Real.log (alphaC xc yc i) - Real.log (alphaC xc yc j)| :=
    List.mem_flatMap.mpr ⟨0, List.mem_range.mpr hpos,
      List.mem_map.mpr ⟨0, List.mem_range.mpr hpos, rfl⟩⟩
  obtain ⟨b0, s0, hbs⟩ := List.exists_cons_of_ne_nil (List.ne_nil_of_mem hmem0)
  rw [d2bList_eq hα, hbs, pyMax_cons_map_fin]
  congr 1
  simp only [d2bSpec]
  apply foldl_max_eq_sup'
  · intro z hz
    rw [← hbs] at hz
    obtain ⟨i, hi, hz2⟩ := List.mem_flatMap.mp hz
    obtain ⟨j, hj, rfl⟩ := List.mem_map.mp hz2
    rw [List.mem_range] at hi hj
    exact ⟨(i, j), Finset.mem_product.mpr ⟨Finset.mem_range.mpr hi, Finset.mem_range.mpr hj⟩,
      rfl⟩
  · intro p hp
    rw [← hbs]
    obtain ⟨h1, h2⟩ := Finset.mem_product.mp hp
    exact List.mem_flatMap.mpr ⟨p.1, List.mem_range.mpr (Finset.mem_range.mp h1),
      List.mem_map.mpr ⟨p.2, List.mem_range.mpr (Finset.mem_range.mp h2), rfl⟩⟩

lemma d2Of_eq {xc yc : List (List ℝ)} (hn : xc.length ≠ 0)
    (hα : ∀ i < xc.length, 0 < alphaC xc yc i) :
    d2Of xc yc = RF.fin (d2aSpec xc yc hn + d2bSpec xc yc hn) := by
  simp only [d2Of]
  rw [d2aOf_eq hn hα, pyMax_d2bList_eq hn hα, RF.add_fin_fin]

lemma compute_eq_ok {x y : NDArray} (hsh : shape x = shape y) (hn : nChannels x ≠ 0) :
    compute_waveform_distance x y
      = Except.ok (d1Of (toCols x) (toCols y), d2Of (toCols x) (toCols y)) := by
  simp only [compute_waveform_distance]
  rw [if_pos hsh, if_neg (show ¬(toCols x).length = 0 from hn)]

lemma compute_shape_error {x y : NDArray} (h : shape x ≠ shape y) :
    compute_waveform_distance x y = Except.error WMError.shapeMismatch := by
  simp only [compute_waveform_distance]
  rw [if_neg h]

lemma compute_value_error {x y : NDArray} (hsh : shape x = shape y)
    (hn : nChannels x = 0) :
    compute_waveform_distance x y = Except.error WMError.valueError := by
  simp only [compute_waveform_distance]
  rw [if_pos hsh, if_pos (show (toCols x).length = 0 from hn)]

lemma resSum_cons (b a c : ℝ) (t s : List ℝ) :
    resSum b (a :: t) (c :: s) = (b * a - c) ^ 2 + resSum b t s := by
  simp [resSum, rres]

lemma resSum_expand : ∀ {u v : List ℝ}, u.length = v.length → ∀ b : ℝ,
    resSum b u v = b ^ 2 * dotL u u - 2 * b * dotL u v + dotL v v := by
  intro u
  induction u with
  | nil =>
    intro v hv b
    cases v with
    | nil => simp [resSum, rres, dotL]
    | cons c s => simp at hv
  | cons a t ih =>
    intro v hv b
    cases v with
    | nil => simp at hv
    | cons c s =>
      have hl : t.length = s.length := by simpa using hv
      rw [resSum_cons, dotL_cons_cons, dotL_cons_cons, dotL_cons_cons, ih hl b]
      ring

lemma resSum_min {u v : List ℝ} (hlen : u.length = v.length) (hpos : 0 < dotL u u)
    (b : ℝ) : resSum (alphaR u v) u v ≤ resSum b u v := by
  rw [resSum_expand hlen, resSum_expand hlen, alphaR]
  set S := dotL u u with hS
  set P := dotL u v with hP
  have hS0 : S ≠ 0 := hpos.ne'
  have key : 0 ≤ S * (b - P / S) ^ 2 := by positivity
  have expand : S * (b - P / S) ^ 2 = S * b ^ 2 - 2 * b * P + P ^ 2 / S := by
    field_simp
    ring
  have h2 : (P / S) ^ 2 * S - 2 * (P / S) * P = -(P ^ 2 / S) := by
    field_simp
    ring
  nlinarith [key, expand, h2]

/-- C1 (counterexample): a 1-D input of length 2 paired with a (2, 1) 2-D
input has identical shapes after the spec's 1-D normalization, yet the code
raises the shape error, because the assertion compares the raw shapes before
any reshaping. -/
theorem shape_check_counterexample :
    compute_waveform_distance (NDArray.one [1, 2]) (NDArray.two [[1], [2]])
      = Except.error WMError.shapeMismatch
    ∧ normShape (NDArray.one [1, 2]) = normShape (NDArray.two [[1], [2]]) := by
  constructor
  · apply compute_shape_error
    simp [shape, width]
  · simp [normShape, width]

/-- C1 (amended): the shape error is raised exactly when the raw
(pre-normalization) shapes of the two arrays differ; for equal raw shapes the
call returns a 2-element vector whenever the channel count is nonzero, and
raises the empty-reduction ValueError when the channel count is zero. -/
theorem shape_check_amended (x y : NDArray) (_hx : wellFormed x) (_hy : wellFormed y) :
    (compute_waveform_distance x y = Except.error WMError.shapeMismatch ↔
      shape x ≠ shape y)
    ∧ (shape x = shape y → nChannels x ≠ 0 →
        ∃ p, compute_waveform_distance x y = Except.ok p)
    ∧ (shape x = shape y → nChannels x = 0 →
        compute_waveform_distance x y = Except.error WMError.valueError) := by
  refine ⟨⟨?_, ?_⟩, ?_, ?_⟩
  · intro h hsh
    by_cases hn : nChannels x = 0
    · rw [compute_value_error hsh hn] at h
      simp at h
    · rw [compute_eq_ok hsh hn] at h
      simp at h
  · intro h
    exact compute_shape_error h
  · intro hsh hn
    exact ⟨_, compute_eq_ok hsh hn⟩
  · intro hsh hn
    exact compute_value_error hsh hn

/-- Witness for the amended C1 at a concrete equal-shape input. -/
theorem shape_check_amended_witness :
    ∃ p, compute_waveform_distance (NDArray.one [1, 2]) (NDArray.one [3, 4])
      = Except.ok p :=
  (shape_check_amended (NDArray.one [1, 2]) (NDArray.one [3, 4]) trivial trivial).2.1
    rfl (by decide)

/-- C2: the computed per-channel scaling factor is
`alpha_i = dot(x_i, y_i) / dot(x_i, x_i)`, and whenever `dot(x_i, x_i) > 0`
this value minimizes `sum((alpha * x_i - y_i)^2)` over all real `alpha`. -/
theorem alpha_formula_and_least_squares (x y : NDArray) (i : ℕ)
    (hsh : shape x = shape y) (hi : i < nChannels x)
    (hd : dotL (colD (toCols x) i) (colD (toCols x) i) ≠ 0) :
    (alphasOf (toCols x) (toCols y)).getD i RF.nan
      = RF.fin (dotL (colD (toCols x) i) (colD (toCols y) i)
          / dotL (colD (toCols x) i) (colD (toCols x) i))
    ∧ (0 < dotL (colD (toCols x) i) (colD (toCols x) i) →
        ∀ b : ℝ, resSum (alphaR (colD (toCols x) i) (colD (toCols y) i))
            (colD (toCols x) i) (colD (toCols y) i)
          ≤ resSum b (colD (toCols x) i) (colD (toCols y) i)) := by
  constructor
  · exact alphasOf_getD_fin hi hd
  · intro hpos b
    exact resSum_min (colD_length_eq hsh i) hpos b

/-- Witness for C2 at a concrete single-channel input pair. -/
theorem alpha_formula_and_least_squares_witness :
    (alphasOf (toCols (NDArray.one [1, 2])) (toCols (NDArray.one [2, 4]))).getD 0 RF.nan
      = RF.fin (dotL (colD (toCols (NDArray.one [1, 2])) 0)
            (colD (toCols (NDArray.one [2, 4])) 0)
          / dotL (colD (toCols (NDArray.one [1, 2])) 0)
            (colD (toCols (NDArray.one [1, 2])) 0))
    ∧ (0 < dotL (colD (toCols (NDArray.one [1, 2])) 0)
          (colD (toCols (NDArray.one [1, 2])) 0) →
        ∀ b : ℝ, resSum (alphaR (colD (toCols (NDArray.one [1, 2])) 0)
              (colD (toCols (NDArray.one [2, 4])) 0))
            (colD (toCols (NDArray.one [1, 2])) 0) (colD (toCols (NDArray.one [2, 4])) 0)
          ≤ resSum b (colD (toCols (NDArray.one [1, 2])) 0)
              (colD (toCols (NDArray.one [2, 4])) 0)) :=
  alpha_formula_and_least_squares (NDArray.one [1, 2]) (NDArray.one [2, 4]) 0 rfl
    (by decide) (by norm_num [colD, toCols, dotL])

/-- C3: for equal-shaped inputs with a nonzero channel count, per-channel
nonzero `dot(x_i, x_i)` and nonzero `y_i`, the first returned component is
`d1 = sum_i ||alpha_i * x_i - y_i||_2 / ||y_i||_2`. -/
theorem d1_formula (x y : NDArray) (hsh : shape x = shape y) (hn : nChannels x ≠ 0)
    (hd : ∀ i < nChannels x, dotL (colD (toCols x) i) (colD (toCols x) i) ≠ 0)
    (hy : ∀ i < nChannels x, ∃ e ∈ colD (toCols y) i, e ≠ 0) :
    ∃ q, compute_waveform_distance x y = Except.ok q
      ∧ q.1 = RF.fin (d1Spec (toCols x) (toCols y)) := by
  refine ⟨_, compute_eq_ok hsh hn, ?_⟩
  exact d1Of_eq hd hy

/-- Witness for C3 at a concrete single-channel input pair. -/
theorem d1_formula_witness :
    ∃ q, compute_waveform_distance (NDArray.one [1, 2]) (NDArray.one [2, 4])
        = Except.ok q
      ∧ q.1 = RF.fin (d1Spec (toCols (NDArray.one [1, 2])) (toCols (NDArray.one [2, 4]))) :=
  d1_formula (NDArray.one [1, 2]) (NDArray.one [2, 4]) rfl (by decide)
    (by
      intro i hi
      have h1 : i = 0 := Nat.lt_one_iff.mp hi
      subst h1
      norm_num [colD, toCols, dotL])
    (by
      intro i hi
      have h1 : i = 0 := Nat.lt_one_iff.mp hi
      subst h1
      exact ⟨2, by simp [colD, toCols], by norm_num⟩)

/-- C4: for equal-shaped inputs with a nonzero channel count and every
spec-side scaling factor strictly positive, the second returned component is
`d2 = max_i |log(alpha_i)| + max_{(i,j)} |log(alpha_i) - log(alpha_j)|` over
all ordered channel pairs including `i = j`. -/
theorem d2_formula (x y : NDArray) (hsh : shape x = shape y) (hn : nChannels x ≠ 0)
    (hα : ∀ i < nChannels x, 0 < alphaC (toCols x) (toCols y) i) :
    ∃ q, compute_waveform_distance x y = Except.ok q
      ∧ q.2 = RF.fin (d2aSpec (toCols x) (toCols y) hn + d2bSpec (toCols x) (toCols y) hn) := by
  refine ⟨_, compute_eq_ok hsh hn, ?_⟩
  exact d2Of_eq hn hα

/-- Witness for C4 at a concrete single-channel input pair. -/
theorem d2_formula_witness :
    ∃ q, compute_waveform_distance (NDArray.one [1, 2]) (NDArray.one [2, 4])
        = Except.ok q
      ∧ q.2 = RF.fin (d2aSpec (toCols (NDArray.one [1, 2])) (toCols (NDArray.one [2, 4]))
            (by decide)
          + d2bSpec (toCols (NDArray.one [1, 2])) (toCols (NDArray.one [2, 4]))
            (by decide)) :=
  d2_formula (NDArray.one [1, 2]) (NDArray.one [2, 4]) rfl (by decide)
    (by
      intro i hi
      have h1 : i = 0 := Nat.lt_one_iff.mp hi
      subst h1
      norm_num [alphaC, alphaR, colD, toCols, dotL])

lemma toCols_two_singletons (a : ℝ) (t : List ℝ) :
    toCols (NDArray.two ((a :: t).map fun e => [e])) = [a :: t] := by
  have h0 : toCols (NDArray.two ((a :: t).map fun e => [e]))
      = [((a :: t).map fun e => [e]).map fun r => r.getD 0 0] := rfl
  rw [h0, List.map_map]
  have h2 : ((fun r : List ℝ => r.getD 0 0) ∘ fun e : ℝ => [e]) = id := by
    funext e
    rfl
  rw [h2, List.map_id]

/-- C5: for 1-D inputs of equal (nonzero) length, the result is identical to
the result on the same data presented as (N, 1) 2-D single-column arrays. -/
theorem oneD_equiv_twoD (v w : List ℝ) (hlen : v.length = w.length) (hv : v ≠ []) :
    compute_waveform_distance (NDArray.one v) (NDArray.one w)
      = compute_waveform_distance (NDArray.two (v.map fun e => [e]))
          (NDArray.two (w.map fun e => [e])) := by
  obtain ⟨a, t, rfl⟩ := List.exists_cons_of_ne_nil hv
  have hw0 : w ≠ [] := by
    intro h
    rw [h] at hlen
    simp at hlen
  obtain ⟨b, s, rfl⟩ := List.exists_cons_of_ne_nil hw0
  have hsh1 : shape (NDArray.one (a :: t)) = shape (NDArray.one (b :: s)) := by
    simp only [shape]
    rw [hlen]
  have hsh2 : shape (NDArray.two ((a :: t).map fun e => [e]))
      = shape (NDArray.two ((b :: s).map fun e => [e])) := by
    simp only [shape, List.length_map]
    rw [hlen]
    rfl
  have hn1 : nChannels (NDArray.one (a :: t)) ≠ 0 := by
    rw [nChannels_one]
    exact one_ne_zero
  have hc1 := toCols_two_singletons a t
  have hc2 := toCols_two_singletons b s
  have hn2 : nChannels (NDArray.two ((a :: t).map fun e => [e])) ≠ 0 := by
    show (toCols (NDArray.two ((a :: t).map fun e => [e]))).length ≠ 0
    rw [hc1]
    simp
  rw [compute_eq_ok hsh1 hn1, compute_eq_ok hsh2 hn2, toCols_one, toCols_one, hc1, hc2]

/-- Witness for C5 at a concrete length-2 input pair. -/
theorem oneD_equiv_twoD_witness :
    compute_waveform_distance (NDArray.one [1, 2]) (NDArray.one [3, 4])
      = compute_waveform_distance (NDArray.two ([1, 2].map fun e => [e]))
          (NDArray.two ([3, 4].map fun e => [e])) :=
  oneD_equiv_twoD [1, 2] [3, 4] rfl (by simp)

lemma vec_norm_nil : vec_norm [] = RF.fin 0 := by
  simp [vec_norm, rfSum, RF.sqrt, Real.sqrt_zero]

/-- C6: if some channel of `x` is entirely zero, the call does not raise:
`alpha_i` is the NaN `0/0` and NaN propagates into both returned components. -/
theorem zero_channel_nan (x y : NDArray) (hsh : shape x = shape y)
    (hz : ∃ i < nChannels x, ∀ e ∈ colD (toCols x) i, e = 0) :
    compute_waveform_distance x y = Except.ok (RF.nan, RF.nan) := by
  obtain ⟨i0, hi0, hzero⟩ := hz
  have hn : nChannels x ≠ 0 := by omega
  have halpha : (alphasOf (toCols x) (toCols y)).getD i0 RF.nan = RF.nan := by
    rw [alphasOf_getD hi0, dotL_zero_left _ hzero _, dotL_zero_left _ hzero _]
    exact RF.div_fin_zero_zero
  have hterm : RF.div
      (vec_norm (residual ((alphasOf (toCols x) (toCols y)).getD i0 RF.nan)
        (colD (toCols x) i0) (colD (toCols y) i0)))
      (vec_norm ((colD (toCols y) i0).map RF.fin)) = RF.nan := by
    rw [halpha]
    cases hxi : colD (toCols x) i0 with
    | nil =>
      have hylen := colD_length_eq hsh i0
      rw [hxi] at hylen
      have hyi : colD (toCols y) i0 = [] := by
        simpa using hylen.symm
      rw [hyi]
      simp [residual, vec_norm_nil]
    | cons p tp =>
      have hylen := colD_length_eq hsh i0
      rw [hxi] at hylen
      cases hyi : colD (toCols y) i0 with
      | nil =>
        rw [hyi] at hylen
        simp at hylen
      | cons q tq =>
        have hmem : RF.nan ∈ residual RF.nan (p :: tp) (q :: tq) := by
          simp [residual]
        rw [vec_norm_of_nan_mem hmem, RF.div_nan_left]
  have hd1 : d1Of (toCols x) (toCols y) = RF.nan := by
    simp only [d1Of]
    apply foldl_add_of_nan_mem
    exact List.mem_map.mpr ⟨i0, List.mem_range.mpr hi0, hterm⟩
  have hmem2 : RF.nan ∈ alphasOf (toCols x) (toCols y) := by
    simp only [alphasOf]
    refine List.mem_map.mpr ⟨i0, List.mem_range.mpr hi0, ?_⟩
    rw [dotL_zero_left _ hzero _, dotL_zero_left _ hzero _]
    exact RF.div_fin_zero_zero
  have hd2 : d2Of (toCols x) (toCols y) = RF.nan := by
    have hd2a : d2aOf (toCols x) (toCols y) = RF.nan := by
      simp only [d2aOf]
      apply npMax_of_nan_mem
      exact List.mem_map.mpr ⟨RF.nan, hmem2, by simp⟩
    simp only [d2Of]
    rw [hd2a]
    simp
  rw [compute_eq_ok hsh hn, hd1, hd2]

/-- Witness for C6: a zero first channel yields the NaN pair. -/
theorem zero_channel_nan_witness :
    compute_waveform_distance (NDArray.one [0, 0]) (NDArray.one [1, 2])
      = Except.ok (RF.nan, RF.nan) :=
  zero_channel_nan (NDArray.one [0, 0]) (NDArray.one [1, 2]) rfl
    ⟨0, by decide, by
      intro e he
      simp [colD, toCols] at he
      exact he⟩

lemma rres_one_self : ∀ u : List ℝ, ∀ e ∈ rres 1 u u, e = 0 := by
  intro u
  induction u with
  | nil => intro e he; simp [rres] at he
  | cons a t ih =>
    intro e he
    have h0 : rres 1 (a :: t) (a :: t) = (1 * a - a) :: rres 1 t t := by
      simp [rres]
    rw [h0] at he
    rcases List.mem_cons.mp he with h | h
    · rw [h]; ring
    · exact ih e h

/-- C7: for element-wise equal inputs with every channel nonzero, every
scaling factor is 1 and the result is exactly the pair (0, 0). -/
theorem identity_case (x : NDArray) (hn : nChannels x ≠ 0)
    (hnz : ∀ i < nChannels x, ∃ e ∈ colD (toCols x) i, e ≠ 0) :
    compute_waveform_distance x x = Except.ok (RF.fin 0, RF.fin 0)
    ∧ ∀ i < nChannels x,
        (alphasOf (toCols x) (toCols x)).getD i RF.nan = RF.fin 1 := by
  have hd : ∀ i < nChannels x, dotL (colD (toCols x) i) (colD (toCols x) i) ≠ 0 :=
    fun i hi => (dotL_self_pos (hnz i hi)).ne'
  have hα1 : ∀ i < nChannels x, alphaC (toCols x) (toCols x) i = 1 := by
    intro i hi
    simp only [alphaC, alphaR]
    exact div_self (hd i hi)
  have halg : ∀ i < nChannels x,
      (alphasOf (toCols x) (toCols x)).getD i RF.nan = RF.fin 1 := by
    intro i hi
    rw [alphasOf_getD_fin hi (hd i hi), hα1 i hi]
  refine ⟨?_, halg⟩
  have hαpos : ∀ i < nChannels x, 0 < alphaC (toCols x) (toCols x) i := by
    intro i hi
    rw [hα1 i hi]
    exact one_pos
  have hd1 : d1Of (toCols x) (toCols x) = RF.fin (d1Spec (toCols x) (toCols x)) :=
    d1Of_eq hd hnz
  have hd1v : d1Spec (toCols x) (toCols x) = 0 := by
    simp only [d1Spec]
    apply Finset.sum_eq_zero
    intro i hi
    rw [Finset.mem_range] at hi
    have hz : ∀ e ∈ rres (alphaC (toCols x) (toCols x) i) (colD (toCols x) i)
        (colD (toCols x) i), e = 0 := by
      rw [hα1 i hi]
      exact rres_one_self _
    rw [normL2_eq_zero_of_zeros hz, zero_div]
  have hd2 : d2Of (toCols x) (toCols x)
      = RF.fin (d2aSpec (toCols x) (toCols x) hn + d2bSpec (toCols x) (toCols x) hn) :=
    d2Of_eq hn hαpos
  have hlog : ∀ i < nChannels x, Real.log (alphaC (toCols x) (toCols x) i) = 0 := by
    intro i hi
    rw [hα1 i hi, Real.log_one]
  have hd2av : d2aSpec (toCols x) (toCols x) hn = 0 := by
    simp only [d2aSpec]
    apply le_antisymm
    · apply Finset.sup'_le
      intro i hi
      rw [Finset.mem_range] at hi
      rw [hlog i hi]
      simp
    · have h0 : 0 ∈ Finset.range (toCols x).length :=
        Finset.mem_range.mpr (Nat.pos_of_ne_zero hn)
      have h1 := Finset.le_sup'
        (fun i => |Real.log (alphaC (toCols x) (toCols x) i)|) h0
      rw [hlog 0 (Nat.pos_of_ne_zero hn)] at h1
      simpa using h1
  have hd2bv : d2bSpec (toCols x) (toCols x) hn = 0 := by
    simp only [d2bSpec]
    apply le_antisymm
    · apply Finset.sup'_le
      intro p hp
      obtain ⟨hp1, hp2⟩ := Finset.mem_product.mp hp
      rw [Finset.mem_range] at hp1 hp2
      rw [hlog p.1 hp1, hlog p.2 hp2]
      simp
    · have h0 : ((0 : ℕ), (0 : ℕ))
          ∈ Finset.range (toCols x).length ×ˢ Finset.range (toCols x).length :=
        Finset.mem_product.mpr ⟨Finset.mem_range.mpr (Nat.pos_of_ne_zero hn),
          Finset.mem_range.mpr (Nat.pos_of_ne_zero hn)⟩
      have h1 := Finset.le_sup'
        (fun p : ℕ × ℕ => |Real.log (alphaC (toCols x) (toCols x) p.1)
          - Real.log (alphaC (toCols x) (toCols x) p.2)|) h0
      simp only [sub_self, abs_zero] at h1
      exact h1
  rw [compute_eq_ok rfl hn, hd1, hd1v, hd2, hd2av, hd2bv]
  norm_num

/-- Witness for C7 at a concrete single-channel input. -/
theorem identity_case_witness :
    compute_waveform_distance (NDArray.one [1, 2]) (NDArray.one [1, 2])
      = Except.ok (RF.fin 0, RF.fin 0)
    ∧ ∀ i < nChannels (NDArray.one [1, 2]),
        (alphasOf (toCols (NDArray.one [1, 2]))
          (toCols (NDArray.one [1, 2]))).getD i RF.nan = RF.fin 1 :=
  identity_case (NDArray.one [1, 2]) (by decide)
    (by
      intro i hi
      have h1 : i = 0 := Nat.lt_one_iff.mp hi
      subst h1
      exact ⟨1, by simp [colD, toCols], by norm_num⟩)

lemma rres_scale_self (k : ℝ) : ∀ u : List ℝ, ∀ e ∈ rres k u (u.map fun c => k * c), e = 0 := by
  intro u
  induction u with
  | nil => intro e he; simp [rres] at he
  | cons a t ih =>
    intro e he
    have h0 : rres k (a :: t) ((a :: t).map fun c => k * c)
        = (k * a - k * a) :: rres k t (t.map fun c => k * c) := by
      simp [rres]
    rw [h0] at he
    rcases List.mem_cons.mp he with h | h
    · rw [h]; ring
    · exact ih e h

/-- C8: for a nonzero single-channel 1-D input and scalar `k > 0`, the call on
`(x, k * x)` gives `alpha = k`, `d1 = 0` and `d2 = |log k|`. -/
theorem pure_scaling_case (v : List ℝ) (k : ℝ) (hk : 0 < k) (hv : ∃ e ∈ v, e ≠ 0) :
    compute_waveform_distance (NDArray.one v) (NDArray.one (v.map fun e => k * e))
      = Except.ok (RF.fin 0, RF.fin |Real.log k|)
    ∧ alphasOf (toCols (NDArray.one v)) (toCols (NDArray.one (v.map fun e => k * e)))
      = [RF.fin k] := by
  have hS : dotL v v ≠ 0 := (dotL_self_pos hv).ne'
  have hsh : shape (NDArray.one v) = shape (NDArray.one (v.map fun e => k * e)) := by
    simp [shape]
  have hn1 : nChannels (NDArray.one v) ≠ 0 := by
    rw [nChannels_one]
    exact one_ne_zero
  have hcx : colD (toCols (NDArray.one v)) 0 = v := rfl
  have hcy : colD (toCols (NDArray.one (v.map fun e => k * e))) 0
      = v.map fun e => k * e := rfl
  have hdot : dotL v (v.map fun e => k * e) = k * dotL v v := dotL_smul_right k v v
  have hαval : alphaC (toCols (NDArray.one v))
      (toCols (NDArray.one (v.map fun e => k * e))) 0 = k := by
    simp only [alphaC, alphaR, hcx, hcy]
    rw [hdot, mul_div_assoc, div_self hS, mul_one]
  have halphas : alphasOf (toCols (NDArray.one v))
      (toCols (NDArray.one (v.map fun e => k * e))) = [RF.fin k] := by
    have h1 : alphasOf (toCols (NDArray.one v))
        (toCols (NDArray.one (v.map fun e => k * e)))
        = [RF.div (RF.fin (dotL v (v.map fun e => k * e))) (RF.fin (dotL v v))] := rfl
    rw [h1, hdot, RF.div_fin_fin hS, mul_div_assoc, div_self hS, mul_one]
  refine ⟨?_, halphas⟩
  have hd : ∀ i < nChannels (NDArray.one v),
      dotL (colD (toCols (NDArray.one v)) i) (colD (toCols (NDArray.one v)) i) ≠ 0 := by
    intro i hi
    have h1 : i = 0 := Nat.lt_one_iff.mp hi
    subst h1
    rw [hcx]
    exact hS
  have hy : ∀ i < nChannels (NDArray.one v),
      ∃ e ∈ colD (toCols (NDArray.one (v.map fun e => k * e))) i, e ≠ 0 := by
    intro i hi
    have h1 : i = 0 := Nat.lt_one_iff.mp hi
    subst h1
    obtain ⟨e, he, hne⟩ := hv
    refine ⟨k * e, ?_, mul_ne_zero hk.ne' hne⟩
    rw [hcy]
    exact List.mem_map.mpr ⟨e, he, rfl⟩
  have hαpos : ∀ i < nChannels (NDArray.one v),
      0 < alphaC (toCols (NDArray.one v))
        (toCols (NDArray.one (v.map fun e => k * e))) i := by
    intro i hi
    have h1 : i = 0 := Nat.lt_one_iff.mp hi
    subst h1
    rw [hαval]
    exact hk
  rw [compute_eq_ok hsh hn1, d1Of_eq hd hy, d2Of_eq hn1 hαpos]
  have hd1v : d1Spec (toCols (NDArray.one v))
      (toCols (NDArray.one (v.map fun e => k * e))) = 0 := by
    simp only [d1Spec]
    apply Finset.sum_eq_zero
    intro i hi
    rw [Finset.mem_range] at hi
    have h1 : i = 0 := Nat.lt_one_iff.mp hi
    subst h1
    have hz : ∀ e ∈ rres (alphaC (toCols (NDArray.one v))
        (toCols (NDArray.one (v.map fun e => k * e))) 0)
        (colD (toCols (NDArray.one v)) 0)
        (colD (toCols (NDArray.one (v.map fun e => k * e))) 0), e = 0 := by
      rw [hαval, hcx, hcy]
      exact rres_scale_self k v
    rw [normL2_eq_zero_of_zeros hz, zero_div]
  have hd2av : d2aSpec (toCols (NDArray.one v))
      (toCols (NDArray.one (v.map fun e => k * e))) hn1 = |Real.log k| := by
    simp only [d2aSpec]
    apply le_antisymm
    · apply Finset.sup'_le
      intro i hi
      rw [Finset.mem_range] at hi
      have h1 : i = 0 := Nat.lt_one_iff.mp hi
      subst h1
      rw [hαval]
    · have h0 : 0 ∈ Finset.range (toCols (NDArray.one v)).length :=
        Finset.mem_range.mpr Nat.one_pos
      have h1 := Finset.le_sup'
        (fun i => |Real.log (alphaC (toCols (NDArray.one v))
          (toCols (NDArray.one (v.map fun e => k * e))) i)|) h0
      rw [hαval] at h1
      exact h1
  have hd2bv : d2bSpec (toCols (NDArray.one v))
      (toCols (NDArray.one (v.map fun e => k * e))) hn1 = 0 := by
    simp only [d2bSpec]
    apply le_antisymm
    · apply Finset.sup'_le
      intro p hp
      obtain ⟨hp1, hp2⟩ := Finset.mem_product.mp hp
      rw [Finset.mem_range] at hp1 hp2
      have h1 : p.1 = 0 := Nat.lt_one_iff.mp hp1
      have h2 : p.2 = 0 := Nat.lt_one_iff.mp hp2
      rw [h1, h2, hαval]
      simp
    · have h0 : ((0 : ℕ), (0 : ℕ)) ∈ Finset.range (toCols (NDArray.one v)).length
          ×ˢ Finset.range (toCols (NDArray.one v)).length :=
        Finset.mem_product.mpr ⟨Finset.mem_range.mpr Nat.one_pos,
          Finset.mem_range.mpr Nat.one_pos⟩
      have h1 := Finset.le_sup'
        (fun p : ℕ × ℕ => |Real.log (alphaC (toCols (NDArray.one v))
            (toCols (NDArray.one (v.map fun e => k * e))) p.1)
          - Real.log (alphaC (toCols (NDArray.one v))
            (toCols (NDArray.one (v.map fun e => k * e))) p.2)|) h0
      simp only [sub_self, abs_zero] at h1
      exact h1
  rw [hd1v, hd2av, hd2bv, add_zero]

/-- Witness for C8 at `x = [1, 2, 3]`, `k = 2`. -/
theorem pure_scaling_case_witness :
    compute_waveform_distance (NDArray.one [1, 2, 3])
        (NDArray.one ([1, 2, 3].map fun e => (2 : ℝ) * e))
      = Except.ok (RF.fin 0, RF.fin |Real.log 2|)
    ∧ alphasOf (toCols (NDArray.one [1, 2, 3]))
        (toCols (NDArray.one ([1, 2, 3].map fun e => (2 : ℝ) * e))) = [RF.fin 2] :=
  pure_scaling_case [1, 2, 3] 2 (by norm_num) ⟨1, by simp, by norm_num⟩

lemma getD_map_mul (k : ℝ) : ∀ (r : List ℝ) (j : ℕ),
    (r.map fun e => k * e).getD j 0 = k * r.getD j 0 := by
  intro r
  induction r with
  | nil => intro j; simp
  | cons a t ih =>
    intro j
    cases j with
    | zero => rfl
    | succ m => simpa using ih m

lemma width_scale (k : ℝ) (rows : List (List ℝ)) :
    width (rows.map fun r => r.map fun e => k * e) = width rows := by
  cases rows with
  | nil => rfl
  | cons r rs => simp [width]

lemma shape_scale (k : ℝ) (x : NDArray) : shape (scaleArr k x) = shape x := by
  cases x with
  | one v => simp [shape, scaleArr]
  | two rows => simp [shape, scaleArr, width_scale]

lemma nChannels_scale (k : ℝ) (x : NDArray) :
    nChannels (scaleArr k x) = nChannels x := by
  cases x with
  | one v => rfl
  | two rows =>
    show (toCols (NDArray.two (rows.map fun r => r.map fun e => k * e))).length
      = (toCols (NDArray.two rows)).length
    rw [length_toCols_two, length_toCols_two, width_scale]

lemma colD_toCols_scale (k : ℝ) (x : NDArray) (i : ℕ) :
    colD (toCols (scaleArr k x)) i = (colD (toCols x) i).map fun e => k * e := by
  cases x with
  | one v =>
    cases i with
    | zero => rfl
    | succ m => simp [colD, toCols, scaleArr]
  | two rows =>
    by_cases hi : i < width rows
    · have hi2 : i < width (rows.map fun r => r.map fun e => k * e) := by
        rw [width_scale]
        exact hi
      show colD (toCols (NDArray.two (rows.map fun r => r.map fun e => k * e))) i = _
      rw [colD_toCols_two hi2, colD_toCols_two hi, List.map_map, List.map_map]
      apply List.map_congr_left
      intro r _
      simp only [Function.comp]
      exact getD_map_mul k r i
    · have h1 : colD (toCols (NDArray.two rows)) i = [] := colD_of_le (by
        rw [length_toCols_two]
        omega)
      have h2 : colD (toCols (scaleArr k (NDArray.two rows))) i = [] := colD_of_le (by
        show (toCols (NDArray.two (rows.map fun r => r.map fun e => k * e))).length ≤ i
        rw [length_toCols_two, width_scale]
        omega)
      rw [h1, h2]
      rfl

lemma alphaC_scale {k : ℝ} (hk : k ≠ 0) (x y : NDArray) (i : ℕ) :
    alphaC (toCols (scaleArr k x)) (toCols y) i
      = alphaC (toCols x) (toCols y) i / k := by
  simp only [alphaC, alphaR, colD_toCols_scale]
  rw [dotL_smul_left, dotL_smul_left, dotL_smul_right]
  rcases eq_or_ne (dotL (colD (toCols x) i) (colD (toCols x) i)) 0 with hS | hS
  · rw [hS]
    simp
  · field_simp
    ring

lemma rres_scale_cancel {k : ℝ} (hk : k ≠ 0) (a : ℝ) : ∀ u v : List ℝ,
    rres (a / k) (u.map fun e => k * e) v = rres a u v := by
  intro u
  induction u with
  | nil => intro v; rfl
  | cons p t ih =>
    intro v
    cases v with
    | nil => rfl
    | cons q s =>
      have h1 := ih s
      simp only [rres] at h1 ⊢
      simp only [List.map_cons, List.zipWith_cons_cons]
      rw [h1]
      have h2 : a / k * (k * p) = a * p := by
        field_simp
        ring
      rw [h2]

lemma abslog_sub_div_invariant {k : ℝ} (hk : 0 < k) (a b : ℝ) :
    RF.abs (RF.sub (RF.log (RF.fin (a / k))) (RF.log (RF.fin (b / k))))
      = RF.abs (RF.sub (RF.log (RF.fin a)) (RF.log (RF.fin b))) := by
  have hk0 : k ≠ 0 := hk.ne'
  rcases lt_trichotomy a 0 with ha | ha | ha <;> rcases lt_trichotomy b 0 with hb | hb | hb
  · rw [RF.log_fin_neg (div_neg_of_neg_of_pos ha hk), RF.log_fin_neg ha]
    simp
  · rw [RF.log_fin_neg (div_neg_of_neg_of_pos ha hk), RF.log_fin_neg ha]
    simp
  · rw [RF.log_fin_neg (div_neg_of_neg_of_pos ha hk), RF.log_fin_neg ha]
    simp
  · subst ha
    rw [zero_div, RF.log_fin_zero, RF.log_fin_neg (div_neg_of_neg_of_pos hb hk),
      RF.log_fin_neg hb]
  · subst ha
    subst hb
    rw [zero_div, RF.log_fin_zero]
  · subst ha
    rw [zero_div, RF.log_fin_zero, RF.log_fin_pos (div_pos hb hk), RF.log_fin_pos hb]
    simp
  · rw [RF.log_fin_pos (div_pos ha hk), RF.log_fin_pos ha,
      RF.log_fin_neg (div_neg_of_neg_of_pos hb hk), RF.log_fin_neg hb]
    simp
  · subst hb
    rw [zero_div, RF.log_fin_zero, RF.log_fin_pos (div_pos ha hk), RF.log_fin_pos ha]
    simp
  · rw [RF.log_fin_pos (div_pos ha hk), RF.log_fin_pos (div_pos hb hk),
      RF.log_fin_pos ha, RF.log_fin_pos hb, RF.sub_fin_fin, RF.sub_fin_fin,
      Real.log_div ha.ne' hk0, Real.log_div hb.ne' hk0]
    have h3 : Real.log a - Real.log k - (Real.log b - Real.log k)
        = Real.log a - Real.log b := by
      ring
    rw [h3]

/-- C9: replacing `x` by `k * x` (with `k > 0` and all scaling factors
well-defined) divides each `alpha_i` by `k` and leaves both the shape
distance `d1` and the cross-channel term `max(d_2b)` unchanged. -/
theorem common_scale_invariance (x y : NDArray) (k : ℝ) (hk : 0 < k)
    (_hsh : shape x = shape y)
    (hd : ∀ i < nChannels x, dotL (colD (toCols x) i) (colD (toCols x) i) ≠ 0) :
    d1Of (toCols (scaleArr k x)) (toCols y) = d1Of (toCols x) (toCols y)
    ∧ pyMax (d2bListOf (toCols (scaleArr k x)) (toCols y))
      = pyMax (d2bListOf (toCols x) (toCols y)) := by
  have hk0 : k ≠ 0 := hk.ne'
  have hnc : (toCols (scaleArr k x)).length = (toCols x).length := nChannels_scale k x
  have halpha : ∀ i < nChannels x,
      (alphasOf (toCols (scaleArr k x)) (toCols y)).getD i RF.nan
        = RF.fin (alphaC (toCols x) (toCols y) i / k) := by
    intro i hi
    have hd' : dotL (colD (toCols (scaleArr k x)) i)
        (colD (toCols (scaleArr k x)) i) ≠ 0 := by
      rw [colD_toCols_scale, dotL_smul_left, dotL_smul_right]
      exact mul_ne_zero hk0 (mul_ne_zero hk0 (hd i hi))
    rw [alphasOf_getD_fin (by rw [hnc]; exact hi) hd', alphaC_scale hk0 x y i]
  constructor
  · simp only [d1Of, hnc]
    congr 1
    apply List.map_congr_left
    intro i hi
    rw [List.mem_range] at hi
    rw [halpha i hi, alphasOf_getD_fin hi (hd i hi), colD_toCols_scale,
      residual_fin, residual_fin, rres_scale_cancel hk0]
  · have hlist : d2bListOf (toCols (scaleArr k x)) (toCols y)
        = d2bListOf (toCols x) (toCols y) := by
      simp only [d2bListOf, hnc]
      rw [List.flatMap_def, List.flatMap_def]
      congr 1
      apply List.map_congr_left
      intro i hi
      rw [List.mem_range] at hi
      apply List.map_congr_left
      intro j hj
      rw [List.mem_range] at hj
      rw [halpha i hi, halpha j hj, alphasOf_getD_fin hi (hd i hi),
        alphasOf_getD_fin hj (hd j hj)]
      exact abslog_sub_div_invariant hk _ _
    rw [hlist]

/-- Witness for C9 at a concrete single-channel input pair with `k = 2`. -/
theorem common_scale_invariance_witness :
    d1Of (toCols (scaleArr 2 (NDArray.one [1, 2]))) (toCols (NDArray.one [3, 4]))
      = d1Of (toCols (NDArray.one [1, 2])) (toCols (NDArray.one [3, 4]))
    ∧ pyMax (d2bListOf (toCols (scaleArr 2 (NDArray.one [1, 2])))
        (toCols (NDArray.one [3, 4])))
      = pyMax (d2bListOf (toCols (NDArray.one [1, 2])) (toCols (NDArray.one [3, 4]))) :=
  common_scale_invariance (NDArray.one [1, 2]) (NDArray.one [3, 4]) 2 (by norm_num) rfl
    (by
      intro i hi
      have h1 : i = 0 := Nat.lt_one_iff.mp hi
      subst h1
      norm_num [colD, toCols, dotL])

/-- C10: with every scaling factor strictly positive and every `y` channel
nonzero, both returned components are finite and nonnegative. -/
theorem nonneg_components (x y : NDArray) (hsh : shape x = shape y)
    (hn : nChannels x ≠ 0)
    (hα : ∀ i < nChannels x, 0 < alphaC (toCols x) (toCols y) i)
    (hy : ∀ i < nChannels x, ∃ e ∈ colD (toCols y) i, e ≠ 0) :
    ∃ a b : ℝ, compute_waveform_distance x y = Except.ok (RF.fin a, RF.fin b)
      ∧ 0 ≤ a ∧ 0 ≤ b := by
  have hd : ∀ i < nChannels x, dotL (colD (toCols x) i) (colD (toCols x) i) ≠ 0 :=
    fun i hi => dotL_ne_zero_of_alphaC_pos (hα i hi)
  refine ⟨d1Spec (toCols x) (toCols y),
    d2aSpec (toCols x) (toCols y) hn + d2bSpec (toCols x) (toCols y) hn, ?_, ?_, ?_⟩
  · rw [compute_eq_ok hsh hn, d1Of_eq hd hy, d2Of_eq hn hα]
  · simp only [d1Spec]
    apply Finset.sum_nonneg
    intro i _
    exact div_nonneg (normL2_nonneg _) (normL2_nonneg _)
  · have h0 : 0 ∈ Finset.range (toCols x).length :=
      Finset.mem_range.mpr (Nat.pos_of_ne_zero hn)
    have hp : ((0 : ℕ), (0 : ℕ))
        ∈ Finset.range (toCols x).length ×ˢ Finset.range (toCols x).length :=
      Finset.mem_product.mpr ⟨h0, h0⟩
    have h1 : (0 : ℝ) ≤ d2aSpec (toCols x) (toCols y) hn := by
      have h3 := Finset.le_sup'
        (fun i => |Real.log (alphaC (toCols x) (toCols y) i)|) h0
      simp only [d2aSpec]
      exact le_trans (abs_nonneg _) h3
    have h2 : (0 : ℝ) ≤ d2bSpec (toCols x) (toCols y) hn := by
      have h3 := Finset.le_sup'
        (fun p : ℕ × ℕ => |Real.log (alphaC (toCols x) (toCols y) p.1)
          - Real.log (alphaC (toCols x) (toCols y) p.2)|) hp
      simp only [d2bSpec]
      exact le_trans (abs_nonneg _) h3
    linarith

/-- Witness for C10 at a concrete single-channel input pair. -/
theorem nonneg_components_witness :
    ∃ a b : ℝ, compute_waveform_distance (NDArray.one [1, 2]) (NDArray.one [2, 4])
      = Except.ok (RF.fin a, RF.fin b) ∧ 0 ≤ a ∧ 0 ≤ b :=
  nonneg_components (NDArray.one [1, 2]) (NDArray.one [2, 4]) rfl (by decide)
    (by
      intro i hi
      have h1 : i = 0 := Nat.lt_one_iff.mp hi
      subst h1
      norm_num [alphaC, alphaR, colD, toCols, dotL])
    (by
      intro i hi
      have h1 : i = 0 := Nat.lt_one_iff.mp hi
      subst h1
      exact ⟨2, by simp [colD, toCols], by norm_num⟩)

end WaveformMatching
